import Mathlib

/-!
Verification of the sequential image-processing benchmark
(`codebase.cpp`): an `Image` record with four byte channels and five
kernels (`generateImageData`, `convertToGrayscale`, `calculateAverageGray`,
`adjustBrightness`, `applyThreshold`) plus the command-line handling of
`main`.

The grayscale kernel and the average computation use C++ `double`
arithmetic, so we first build an exact model of IEEE-754 binary64
round-to-nearest-even over `ℚ` (`fl`), restricted to the normal range,
which is all these programs ever touch.  Machine integers are modelled by
`ℕ`/`ℤ`; bytes are `ℕ` values bounded by 255.
-/

set_option maxRecDepth 100000

namespace ImgBench

attribute [local semireducible] Rat.mul Rat.inv Rat.add Rat.sub


/-- Fuel-driven floor of the base-2 logarithm on `ℕ` (structural recursion,
so it reduces in the kernel). -/
def lg2F : ℕ → ℕ → ℕ
  | 0, _ => 0
  | f + 1, n => if 2 ≤ n then lg2F f (n / 2) + 1 else 0

/-- `lg2 n` is `⌊log₂ n⌋` for `n ≥ 1`. -/
def lg2 (n : ℕ) : ℕ := lg2F n n

/-- Fuel-driven ceiling of the base-2 logarithm on `ℕ`. -/
def clg2F : ℕ → ℕ → ℕ
  | 0, _ => 0
  | f + 1, n => if 2 ≤ n then clg2F f ((n + 1) / 2) + 1 else 0

/-- `clg2 n` is `⌈log₂ n⌉` for `n ≥ 1`. -/
def clg2 (n : ℕ) : ℕ := clg2F n n

/-- Round a rational to the nearest integer, ties to even
(the IEEE-754 default rounding of the fractional position). -/
def rnEven (q : ℚ) : ℤ :=
  if q - ⌊q⌋ < 1 / 2 then ⌊q⌋
  else if (1 : ℚ) / 2 < q - ⌊q⌋ then ⌊q⌋ + 1
  else if ⌊q⌋ % 2 = 0 then ⌊q⌋ else ⌊q⌋ + 1

/-- Binade exponent of a positive rational: the unique `e` with
`2 ^ e ≤ q < 2 ^ (e + 1)`. -/
def elogQ (q : ℚ) : ℤ :=
  if 1 ≤ q then (lg2 (⌊q⌋).toNat : ℤ) else -(clg2 (⌈q⁻¹⌉).toNat : ℤ)

/-- Exact model of rounding a real (here rational) value to the nearest
IEEE-754 binary64 double, round-to-nearest ties-to-even, valid in the
normal range (no overflow / subnormals, which this program never
reaches). `fl 0 = 0` and negative inputs never occur here. -/
def fl (q : ℚ) : ℚ :=
  if 0 < q then
    (rnEven (q / 2 ^ (elogQ q - 52)) : ℚ) * 2 ^ (elogQ q - 52)
  else 0

/-- The `double` the literal `0.299` denotes. -/
def c299 : ℚ := fl (299 / 1000)

/-- The `double` the literal `0.587` denotes. -/
def c587 : ℚ := fl (587 / 1000)

/-- The `double` the literal `0.114` denotes. -/
def c114 : ℚ := fl (114 / 1000)

/-- The double expression `0.299 * r + 0.587 * g + 0.114 * b` of
`convertToGrayscale`, with an IEEE rounding after each multiplication and
each addition (left-associated, as C++ parses it).  The byte operands
convert to `double` exactly. -/
def dsum (r g b : ℕ) : ℚ :=
  fl (fl (fl (c299 * r) + fl (c587 * g)) + fl (c114 * b))

/-- The store `img.gray[i] = (unsigned char)(…)` of `convertToGrayscale`:
truncation toward zero of the nonnegative double value. -/
def grayVal (r g b : ℕ) : ℕ := (⌊dsum r g b⌋).toNat

/-- `struct Image`: dimensions plus the four byte channels, each a flat
row-major sequence of length `width * height`. -/
structure Image where
  width : ℕ
  height : ℕ
  r : List ℕ
  g : List ℕ
  b : List ℕ
  gray : List ℕ

/-- `int size = img.width * img.height`. -/
def Image.size (img : Image) : ℕ := img.width * img.height

/-- The constructor `Image(int w, int h)`: the four channels are resized
to `w * h`, value-initialized to zero. -/
def Image.init (w h : ℕ) : Image :=
  ⟨w, h, List.replicate (w * h) 0, List.replicate (w * h) 0,
    List.replicate (w * h) 0, List.replicate (w * h) 0⟩

/-- `generateImageData`: for every `i < size`,
`r[i] = (i*123) % 256`, `g[i] = (i*456) % 256`, `b[i] = (i*789) % 256`. -/
def generateImageData (img : Image) : Image :=
  { img with
    r := (List.range img.size).map fun i => i * 123 % 256
    g := (List.range img.size).map fun i => i * 456 % 256
    b := (List.range img.size).map fun i => i * 789 % 256 }

/-- `convertToGrayscale`: `gray[i] = (unsigned char)(0.299*r[i] +
0.587*g[i] + 0.114*b[i])` for every `i < size`. -/
def convertToGrayscale (img : Image) : Image :=
  { img with
    gray := (List.range img.size).map fun i =>
      grayVal (img.r.getD i 0) (img.g.getD i 0) (img.b.getD i 0) }

/-- The `long long sum` accumulation loop of `calculateAverageGray`. -/
def graySum (img : Image) : ℤ :=
  (List.range img.size).foldl (fun acc i => acc + (img.gray.getD i 0 : ℤ)) 0

/-- `calculateAverageGray`: `(double)sum / size` — the 64-bit integer sum
and the pixel count each convert to `double` (rounding if they exceed
2^53, which cannot happen for real `int` dimensions), then one correctly
rounded division. -/
def calculateAverageGray (img : Image) : ℚ :=
  fl (fl ((graySum img : ℚ)) / fl ((img.size : ℚ)))

/-- The per-pixel body of `adjustBrightness`: `int newVal = gray[i] +
offset; if (newVal > 255) newVal = 255; if (newVal < 0) newVal = 0;`
then the store back as a byte. -/
def adjustPixel (g0 : ℕ) (offset : ℤ) : ℕ :=
  let newVal : ℤ := (g0 : ℤ) + offset
  let v1 : ℤ := if 255 < newVal then 255 else newVal
  let v2 : ℤ := if v1 < 0 then 0 else v1
  v2.toNat

/-- `adjustBrightness`: apply `adjustPixel` at every index. -/
def adjustBrightness (img : Image) (offset : ℤ) : Image :=
  { img with
    gray := (List.range img.size).map fun i =>
      adjustPixel (img.gray.getD i 0) offset }

/-- `applyThreshold`: `gray[i] = (gray[i] >= threshold) ? 255 : 0`. -/
def applyThreshold (img : Image) (threshold : ℕ) : Image :=
  { img with
    gray := (List.range img.size).map fun i =>
      if threshold ≤ img.gray.getD i 0 then 255 else 0 }

/-- The length invariant of `Image`: all four channels have exactly
`width * height` elements. -/
def WF (img : Image) : Prop :=
  img.r.length = img.size ∧ img.g.length = img.size ∧
  img.b.length = img.size ∧ img.gray.length = img.size

/-- Byte-boundedness of a channel (every stored value fits in
`unsigned char`). -/
def Bytes (l : List ℕ) : Prop := ∀ v ∈ l, v ≤ 255

/-- The argument handling of `main`, on the `atoi` values of
`argv[1..]`: no arguments gives the 1024×1024 default; any argument
present makes `main` read both `argv[1]` and `argv[2]` unconditionally,
so a single argument means an out-of-bounds read (`none`). -/
def mainDims (args : List ℤ) : Option (ℤ × ℤ) :=
  match args with
  | [] => some (1024, 1024)
  | [_] => none
  | w :: h :: _ => some (w, h)

theorem lg2F_spec : ∀ (f n : ℕ), 1 ≤ n → n ≤ f →
    2 ^ lg2F f n ≤ n ∧ n < 2 ^ (lg2F f n + 1) := by
  intro f
  induction f with
  | zero => intro n h1 h2; omega
  | succ f ih =>
    intro n h1 h2
    by_cases h : 2 ≤ n
    · have hrec := ih (n / 2) (by omega) (by omega)
      simp only [lg2F, if_pos h]
      constructor
      · have : 2 ^ (lg2F f (n / 2) + 1) = 2 * 2 ^ lg2F f (n / 2) := by ring
        rw [this]; omega
      · have : 2 ^ (lg2F f (n / 2) + 1 + 1) = 2 * 2 ^ (lg2F f (n / 2) + 1) := by ring
        rw [this]; omega
    · simp only [lg2F, if_neg h]
      omega

theorem lg2_spec (n : ℕ) (h : 1 ≤ n) : 2 ^ lg2 n ≤ n ∧ n < 2 ^ (lg2 n + 1) :=
  lg2F_spec n n h le_rfl

theorem clg2F_spec : ∀ (f n : ℕ), 2 ≤ n → n ≤ f →
    n ≤ 2 ^ clg2F f n ∧ 2 ^ (clg2F f n - 1) < n := by
  intro f
  induction f with
  | zero => intro n h1 h2; omega
  | succ f ih =>
    intro n h1 h2
    simp only [clg2F, if_pos h1]
    by_cases h : 2 ≤ (n + 1) / 2
    · have hrec := ih ((n + 1) / 2) h (by omega)
      have hc1 : 1 ≤ clg2F f ((n + 1) / 2) := by
        by_contra hc
        have : clg2F f ((n + 1) / 2) = 0 := by omega
        rw [this] at hrec; simp at hrec; omega
      constructor
      · have : 2 ^ (clg2F f ((n + 1) / 2) + 1) = 2 * 2 ^ clg2F f ((n + 1) / 2) := by
          ring
        rw [this]; omega
      · have he : clg2F f ((n + 1) / 2) + 1 - 1 = (clg2F f ((n + 1) / 2) - 1) + 1 := by
          omega
        rw [he]
        have : 2 ^ ((clg2F f ((n + 1) / 2) - 1) + 1) = 2 * 2 ^ (clg2F f ((n + 1) / 2) - 1) := by
          ring
        rw [this]; omega
    · have hn2 : n = 2 := by omega
      have : clg2F f ((n + 1) / 2) = 0 := by
        subst hn2
        cases f <;> simp [clg2F]
      rw [this, hn2]; simp

theorem clg2_spec (n : ℕ) (h : 2 ≤ n) :
    n ≤ 2 ^ clg2 n ∧ 2 ^ (clg2 n - 1) < n :=
  clg2F_spec n n h le_rfl

theorem rnEven_intCast (n : ℤ) : rnEven (n : ℚ) = n := by
  simp [rnEven]

theorem rnEven_ge_floor (q : ℚ) : ⌊q⌋ ≤ rnEven q := by
  unfold rnEven; split_ifs <;> omega

theorem rnEven_le_floor_add_one (q : ℚ) : rnEven q ≤ ⌊q⌋ + 1 := by
  unfold rnEven; split_ifs <;> omega

theorem rnEven_le (q : ℚ) : (rnEven q : ℚ) ≤ q + 1 / 2 := by
  have hfl : (⌊q⌋ : ℚ) ≤ q := Int.floor_le q
  unfold rnEven
  split_ifs with h1 h2 h3
  · linarith
  · push_cast; linarith
  · linarith
  · push_cast; linarith

theorem le_rnEven (q : ℚ) : q - 1 / 2 ≤ (rnEven q : ℚ) := by
  have hfl : q < ⌊q⌋ + 1 := Int.lt_floor_add_one q
  unfold rnEven
  split_ifs with h1 h2 h3
  · linarith
  · push_cast; linarith
  · linarith
  · push_cast; linarith

theorem rnEven_mono {x y : ℚ} (h : x ≤ y) : rnEven x ≤ rnEven y := by
  rcases lt_or_eq_of_le (Int.floor_le_floor h) with hf | hf
  · calc rnEven x ≤ ⌊x⌋ + 1 := rnEven_le_floor_add_one x
    _ ≤ ⌊y⌋ := by omega
    _ ≤ rnEven y := rnEven_ge_floor y
  · have hxy : x - ⌊x⌋ ≤ y - ⌊y⌋ := by
      rw [hf]; linarith
    unfold rnEven
    rw [hf]
    split_ifs <;> first | omega | linarith

theorem elogQ_spec (q : ℚ) (hq : 0 < q) :
    (2 : ℚ) ^ elogQ q ≤ q ∧ q < (2 : ℚ) ^ (elogQ q + 1) := by
  unfold elogQ
  by_cases h1 : 1 ≤ q
  · rw [if_pos h1]
    have hfl : (1 : ℤ) ≤ ⌊q⌋ := by
      rw [Int.le_floor]; exact_mod_cast h1
    set n : ℕ := (⌊q⌋).toNat with hn
    have hnz : (n : ℤ) = ⌊q⌋ := Int.toNat_of_nonneg (by omega)
    have hn1 : 1 ≤ n := by omega
    obtain ⟨hlo, hhi⟩ := lg2_spec n hn1
    constructor
    · rw [zpow_natCast]
      have hnq : (n : ℚ) ≤ q := by
        calc (n : ℚ) = ((n : ℤ) : ℚ) := by push_cast; ring
        _ = (⌊q⌋ : ℚ) := by rw [hnz]
        _ ≤ q := Int.floor_le q
      calc (2 : ℚ) ^ lg2 n ≤ (n : ℚ) := by exact_mod_cast hlo
      _ ≤ q := hnq
    · have he : (lg2 n : ℤ) + 1 = ((lg2 n + 1 : ℕ) : ℤ) := by push_cast; ring
      rw [he, zpow_natCast]
      have hq1 : q < (n : ℚ) + 1 := by
        have := Int.lt_floor_add_one q
        calc q < (⌊q⌋ : ℚ) + 1 := this
        _ = ((n : ℤ) : ℚ) + 1 := by rw [hnz]
        _ = (n : ℚ) + 1 := by push_cast; ring
      calc q < (n : ℚ) + 1 := hq1
      _ ≤ (2 : ℚ) ^ (lg2 n + 1) := by exact_mod_cast hhi
  · rw [if_neg h1]
    push_neg at h1
    have hqi : 1 < q⁻¹ := (one_lt_inv₀ hq).mpr h1
    have hqipos : 0 < q⁻¹ := by linarith
    have hcl : (1 : ℤ) < ⌈q⁻¹⌉ := Int.lt_ceil.mpr (by exact_mod_cast hqi)
    set m : ℕ := (⌈q⁻¹⌉).toNat with hm
    have hmz : (m : ℤ) = ⌈q⁻¹⌉ := Int.toNat_of_nonneg (by omega)
    have hm2 : 2 ≤ m := by omega
    obtain ⟨hlo, hhi⟩ := clg2_spec m hm2
    set c : ℕ := clg2 m with hc
    have hc1 : 1 ≤ c := by
      by_contra hcc
      have : c = 0 := by omega
      rw [this] at hlo; simp at hlo; omega
    have hqm : q⁻¹ ≤ (m : ℚ) := by
      calc q⁻¹ ≤ (⌈q⁻¹⌉ : ℚ) := Int.le_ceil q⁻¹
      _ = ((m : ℤ) : ℚ) := by rw [hmz]
      _ = (m : ℚ) := by push_cast; ring
    constructor
    · have key : q⁻¹ ≤ (2 : ℚ) ^ c := by
        calc q⁻¹ ≤ (m : ℚ) := hqm
        _ ≤ (2 : ℚ) ^ c := by exact_mod_cast hlo
      have hinv : ((2 : ℚ) ^ c)⁻¹ ≤ q := by
        have h2 := inv_anti₀ hqipos key
        rwa [inv_inv] at h2
      calc (2 : ℚ) ^ (-(c : ℤ)) = ((2 : ℚ) ^ (c : ℤ))⁻¹ := by
            rw [zpow_neg]
      _ = ((2 : ℚ) ^ c)⁻¹ := by rw [zpow_natCast]
      _ ≤ q := hinv
    · have hmq : (m : ℚ) - 1 < q⁻¹ := by
        have := Int.ceil_lt_add_one q⁻¹
        have h2 : (⌈q⁻¹⌉ : ℚ) = (m : ℚ) := by rw [← hmz]; push_cast; ring
        rw [h2] at this; linarith
      have key : (2 : ℚ) ^ (c - 1) < q⁻¹ := by
        have hnat : 2 ^ (c - 1) + 1 ≤ m := hhi
        have hcast : (2 : ℚ) ^ (c - 1) + 1 ≤ (m : ℚ) := by exact_mod_cast hnat
        linarith
      have hinv : q < ((2 : ℚ) ^ (c - 1))⁻¹ := by
        have h2 := inv_strictAnti₀ (by positivity) key
        rwa [inv_inv] at h2
      have hee : -(c : ℤ) + 1 = -(((c - 1 : ℕ)) : ℤ) := by
        push_cast [hc1]; ring
      calc q < ((2 : ℚ) ^ (c - 1))⁻¹ := hinv
      _ = ((2 : ℚ) ^ ((c - 1 : ℕ) : ℤ))⁻¹ := by rw [zpow_natCast]
      _ = (2 : ℚ) ^ (-(((c - 1 : ℕ)) : ℤ)) := by rw [zpow_neg]
      _ = (2 : ℚ) ^ (-(c : ℤ) + 1) := by rw [hee]

theorem elogQ_mono {x y : ℚ} (hx : 0 < x) (h : x ≤ y) : elogQ x ≤ elogQ y := by
  have hy : 0 < y := lt_of_lt_of_le hx h
  obtain ⟨hx1, _⟩ := elogQ_spec x hx
  obtain ⟨_, hy2⟩ := elogQ_spec y hy
  have : (2 : ℚ) ^ elogQ x < (2 : ℚ) ^ (elogQ y + 1) := by
    calc (2 : ℚ) ^ elogQ x ≤ x := hx1
    _ ≤ y := h
    _ < (2 : ℚ) ^ (elogQ y + 1) := hy2
  have := (zpow_lt_zpow_iff_right₀ (by norm_num : (1 : ℚ) < 2)).mp this
  omega

theorem two_zpow_53 : (2 : ℚ) ^ ((53 : ℤ)) = ((2 ^ 53 : ℤ) : ℚ) := by
  norm_num

theorem two_zpow_52 : (2 : ℚ) ^ ((52 : ℤ)) = ((2 ^ 52 : ℤ) : ℚ) := by
  norm_num

theorem fl_zero : fl 0 = 0 := by
  unfold fl; rw [if_neg (by norm_num)]

theorem fl_nonneg {q : ℚ} (h : 0 ≤ q) : 0 ≤ fl q := by
  unfold fl
  split_ifs with hq
  · have hpow : (0 : ℚ) < 2 ^ (elogQ q - 52) := zpow_pos (by norm_num) _
    have hdiv : (0 : ℚ) ≤ q / 2 ^ (elogQ q - 52) := le_of_lt (by positivity)
    have h0 : (0 : ℤ) ≤ rnEven (q / 2 ^ (elogQ q - 52)) := by
      have h1 := rnEven_mono (x := ((0 : ℤ) : ℚ)) (by exact_mod_cast hdiv)
      rwa [rnEven_intCast] at h1
    have h2 : (0 : ℚ) ≤ (rnEven (q / 2 ^ (elogQ q - 52)) : ℚ) := by exact_mod_cast h0
    positivity
  · exact le_refl 0

/-- `fl` stays below the next binade boundary: for `0 < x`,
`fl x ≤ 2 ^ (elogQ x + 1)`. -/
theorem fl_le_binade_top {x : ℚ} (hx : 0 < x) :
    fl x ≤ (2 : ℚ) ^ (elogQ x + 1) := by
  obtain ⟨_, hx2⟩ := elogQ_spec x hx
  unfold fl
  rw [if_pos hx]
  have hpow : (0 : ℚ) < 2 ^ (elogQ x - 52) := zpow_pos (by norm_num) _
  have hexp : (2 : ℚ) ^ ((53 : ℤ)) * 2 ^ (elogQ x - 52) = 2 ^ (elogQ x + 1) := by
    rw [← zpow_add₀ (by norm_num : (2 : ℚ) ≠ 0)]
    congr 1
    ring
  have hdivlt : x / 2 ^ (elogQ x - 52) < (2 : ℚ) ^ ((53 : ℤ)) := by
    rw [div_lt_iff₀ hpow, hexp]
    exact hx2
  have hfloor : ⌊x / 2 ^ (elogQ x - 52)⌋ < 2 ^ 53 := by
    rw [Int.floor_lt]
    calc x / 2 ^ (elogQ x - 52) < (2 : ℚ) ^ ((53 : ℤ)) := hdivlt
    _ = ((2 ^ 53 : ℤ) : ℚ) := two_zpow_53
  have hrn : rnEven (x / 2 ^ (elogQ x - 52)) ≤ 2 ^ 53 := by
    have := rnEven_le_floor_add_one (x / 2 ^ (elogQ x - 52))
    omega
  have hrnq : (rnEven (x / 2 ^ (elogQ x - 52)) : ℚ) ≤ (2 : ℚ) ^ ((53 : ℤ)) := by
    rw [two_zpow_53]
    exact_mod_cast hrn
  calc (rnEven (x / 2 ^ (elogQ x - 52)) : ℚ) * 2 ^ (elogQ x - 52)
      ≤ (2 : ℚ) ^ ((53 : ℤ)) * 2 ^ (elogQ x - 52) :=
        mul_le_mul_of_nonneg_right hrnq (le_of_lt hpow)
  _ = 2 ^ (elogQ x + 1) := hexp

/-- `fl` stays above the binade bottom: for `0 < y`,
`2 ^ elogQ y ≤ fl y`. -/
theorem binade_bot_le_fl {y : ℚ} (hy : 0 < y) :
    (2 : ℚ) ^ elogQ y ≤ fl y := by
  obtain ⟨hy1, _⟩ := elogQ_spec y hy
  unfold fl
  rw [if_pos hy]
  have hpow : (0 : ℚ) < 2 ^ (elogQ y - 52) := zpow_pos (by norm_num) _
  have hexp : (2 : ℚ) ^ ((52 : ℤ)) * 2 ^ (elogQ y - 52) = 2 ^ elogQ y := by
    rw [← zpow_add₀ (by norm_num : (2 : ℚ) ≠ 0)]
    congr 1
    ring
  have hdivge : (2 : ℚ) ^ ((52 : ℤ)) ≤ y / 2 ^ (elogQ y - 52) := by
    rw [le_div_iff₀ hpow, hexp]
    exact hy1
  have harg : ((2 ^ 52 : ℤ) : ℚ) ≤ y / 2 ^ (elogQ y - 52) := by
    calc ((2 ^ 52 : ℤ) : ℚ) = (2 : ℚ) ^ ((52 : ℤ)) := two_zpow_52.symm
    _ ≤ y / 2 ^ (elogQ y - 52) := hdivge
  have hrn : (2 ^ 52 : ℤ) ≤ rnEven (y / 2 ^ (elogQ y - 52)) := by
    have h2 := rnEven_mono harg
    rwa [rnEven_intCast] at h2
  have hrnq : (2 : ℚ) ^ ((52 : ℤ)) ≤ (rnEven (y / 2 ^ (elogQ y - 52)) : ℚ) := by
    rw [two_zpow_52]
    exact_mod_cast hrn
  calc (2 : ℚ) ^ elogQ y = (2 : ℚ) ^ ((52 : ℤ)) * 2 ^ (elogQ y - 52) := hexp.symm
  _ ≤ (rnEven (y / 2 ^ (elogQ y - 52)) : ℚ) * 2 ^ (elogQ y - 52) :=
      mul_le_mul_of_nonneg_right hrnq (le_of_lt hpow)

/-- Rounding to nearest is monotone (on the nonnegative range used here). -/
theorem fl_mono {x y : ℚ} (hx : 0 ≤ x) (h : x ≤ y) : fl x ≤ fl y := by
  rcases eq_or_lt_of_le hx with hx0 | hx0
  · rw [← hx0, fl_zero]
    exact fl_nonneg (le_trans hx h)
  · have hy0 : 0 < y := lt_of_lt_of_le hx0 h
    have hexy : elogQ x ≤ elogQ y := elogQ_mono hx0 h
    rcases eq_or_lt_of_le hexy with hee | hlt
    · unfold fl
      rw [if_pos hx0, if_pos hy0, ← hee]
      have hpow : (0 : ℚ) < 2 ^ (elogQ x - 52) := zpow_pos (by norm_num) _
      have hdiv : x / 2 ^ (elogQ x - 52) ≤ y / 2 ^ (elogQ x - 52) := by
        gcongr
      have hrn := rnEven_mono hdiv
      have hrnq : (rnEven (x / 2 ^ (elogQ x - 52)) : ℚ) ≤
          (rnEven (y / 2 ^ (elogQ x - 52)) : ℚ) := by exact_mod_cast hrn
      exact mul_le_mul_of_nonneg_right hrnq (le_of_lt hpow)
    · calc fl x ≤ (2 : ℚ) ^ (elogQ x + 1) := fl_le_binade_top hx0
      _ ≤ (2 : ℚ) ^ elogQ y :=
          zpow_le_zpow_right₀ (by norm_num) (by omega)
      _ ≤ fl y := binade_bot_le_fl hy0

/-- Integers below `2 ^ 53` are represented exactly. -/
theorem fl_natCast {n : ℕ} (h : n < 2 ^ 53) : fl (n : ℚ) = (n : ℚ) := by
  rcases Nat.eq_zero_or_pos n with h0 | hpos
  · rw [h0]; push_cast; exact fl_zero
  · have hn : (0 : ℚ) < (n : ℚ) := by exact_mod_cast hpos
    obtain ⟨hlo, hhi⟩ := elogQ_spec (n : ℚ) hn
    have he52 : elogQ (n : ℚ) ≤ 52 := by
      by_contra hc
      push_neg at hc
      have h53 : (53 : ℤ) ≤ elogQ (n : ℚ) := by omega
      have hge : ((2 : ℚ)) ^ ((53 : ℤ)) ≤ (2 : ℚ) ^ elogQ (n : ℚ) :=
        zpow_le_zpow_right₀ (by norm_num) h53
      have hlt : (n : ℚ) < (2 : ℚ) ^ ((53 : ℤ)) := by
        rw [two_zpow_53]
        exact_mod_cast h
      linarith
    have he0 : 0 ≤ elogQ (n : ℚ) := by
      by_contra hc
      push_neg at hc
      have h1 : elogQ (n : ℚ) + 1 ≤ 0 := by omega
      have h4 : (2 : ℚ) ^ (elogQ (n : ℚ) + 1) ≤ (2 : ℚ) ^ ((0 : ℤ)) :=
        zpow_le_zpow_right₀ (by norm_num) h1
      have h2 : (2 : ℚ) ^ ((0 : ℤ)) = 1 := by norm_num
      have h3 : (1 : ℚ) ≤ (n : ℚ) := by exact_mod_cast hpos
      linarith
    set k : ℕ := (52 - elogQ (n : ℚ)).toNat with hk
    have hkz : (k : ℤ) = 52 - elogQ (n : ℚ) := Int.toNat_of_nonneg (by omega)
    have hgexp : elogQ (n : ℚ) - 52 = -(k : ℤ) := by omega
    unfold fl
    rw [if_pos hn, hgexp, zpow_neg, zpow_natCast]
    have hpow0 : ((2 : ℚ) ^ k) ≠ 0 := by positivity
    have hdiv : (n : ℚ) / ((2 : ℚ) ^ k)⁻¹ = (((n * 2 ^ k : ℕ) : ℤ) : ℚ) := by
      rw [div_eq_mul_inv, inv_inv]
      push_cast
      ring
    rw [hdiv, rnEven_intCast]
    push_cast
    field_simp

theorem getD_range_map (F : ℕ → ℕ) {n i : ℕ} (h : i < n) :
    ((List.range n).map F).getD i 0 = F i := by
  rw [List.getD_eq_getElem?_getD, List.getElem?_map, List.getElem?_range h]
  rfl

theorem adjustPixel_eq (g0 : ℕ) (offset : ℤ) :
    (adjustPixel g0 offset : ℤ) = min 255 (max 0 ((g0 : ℤ) + offset)) := by
  simp only [adjustPixel]
  split_ifs <;> omega

/-- C3: after `generateImageData`, every linear index `i < width*height`
holds `r[i] = (i*123) mod 256`, `g[i] = (i*456) mod 256` and
`b[i] = (i*789) mod 256`; the generator is a pure function of the image
(hence deterministic, and it has no failure case). -/
theorem generateImageData_values (img : Image) (i : ℕ) (h : i < img.size) :
    (generateImageData img).r.getD i 0 = i * 123 % 256 ∧
    (generateImageData img).g.getD i 0 = i * 456 % 256 ∧
    (generateImageData img).b.getD i 0 = i * 789 % 256 :=
  ⟨getD_range_map _ h, getD_range_map _ h, getD_range_map _ h⟩

theorem generateImageData_values_witness :
    (generateImageData (Image.init 2 2)).r.getD 3 0 = 113 ∧
    (generateImageData (Image.init 2 2)).g.getD 3 0 = 88 ∧
    (generateImageData (Image.init 2 2)).b.getD 3 0 = 63 := by
  obtain ⟨h1, h2, h3⟩ := generateImageData_values (Image.init 2 2) 3 (by decide)
  exact ⟨by rw [h1], by rw [h2], by rw [h3]⟩

/-- C4: `adjustBrightness` maps every gray pixel to
`gray[i] + offset` computed in `ℤ` (wide enough, no 8-bit wraparound),
clamped inclusively to `[0, 255]`, stored back as a byte-sized value. -/
theorem adjustBrightness_clamps (img : Image) (offset : ℤ) (i : ℕ)
    (h : i < img.size) :
    ((adjustBrightness img offset).gray.getD i 0 : ℤ) =
      min 255 (max 0 ((img.gray.getD i 0 : ℤ) + offset)) ∧
    (adjustBrightness img offset).gray.getD i 0 ≤ 255 := by
  have hv : (adjustBrightness img offset).gray.getD i 0 =
      adjustPixel (img.gray.getD i 0) offset := getD_range_map _ h
  have he := adjustPixel_eq (img.gray.getD i 0) offset
  constructor
  · rw [hv]; exact he
  · rw [hv]; omega

theorem adjustBrightness_clamps_witness :
    ((adjustBrightness (Image.init 1 1) 300).gray.getD 0 0 : ℤ) = 255 ∧
    (adjustBrightness (Image.init 1 1) 300).gray.getD 0 0 ≤ 255 := by
  obtain ⟨h1, h2⟩ := adjustBrightness_clamps (Image.init 1 1) 300 0 (by decide)
  exact ⟨by rw [h1]; decide, h2⟩

/-- C5: `applyThreshold` maps `gray[i]` to 255 exactly when
`gray[i] >= threshold` (inclusive at the threshold itself) and to 0
otherwise; on gray values `[0,127,128,255]` with threshold 128 the
output is `[0,0,255,255]`. -/
theorem applyThreshold_values :
    (∀ (img : Image) (t : ℕ) (i : ℕ), i < img.size →
      (applyThreshold img t).gray.getD i 0 =
        if t ≤ img.gray.getD i 0 then 255 else 0) ∧
    (applyThreshold ⟨2, 2, [0, 0, 0, 0], [0, 0, 0, 0], [0, 0, 0, 0],
        [0, 127, 128, 255]⟩ 128).gray = [0, 0, 255, 255] := by
  constructor
  · intro img t i h
    exact getD_range_map _ h
  · decide

theorem applyThreshold_values_witness :
    (applyThreshold (Image.init 1 1) 1).gray.getD 0 0 =
      if 1 ≤ (Image.init 1 1).gray.getD 0 0 then 255 else 0 :=
  applyThreshold_values.1 (Image.init 1 1) 1 0 (by decide)

/-- C6: `main` with no arguments uses the defaults `width = height =
1024`; as soon as one argument is present both `argv[1]` and `argv[2]`
are read unconditionally, so a single argument makes the second read go
out of bounds (no result) rather than erroring or defaulting, while two
or more arguments give `(width, height)` from the first two. -/
theorem mainDims_spec :
    mainDims [] = some (1024, 1024) ∧
    (∀ w : ℤ, mainDims [w] = none) ∧
    (∀ (w h : ℤ) (rest : List ℤ), mainDims (w :: h :: rest) = some (w, h)) :=
  ⟨rfl, fun _ => rfl, fun _ _ _ => rfl⟩

/-- C7: `adjustBrightness` with offset 0 leaves the gray channel
unchanged; with offset +1000 every pixel saturates to 255; and the
+1000 / −1000 round trip is not the identity (witnessed by a pixel of
value 100 that comes back as 0). -/
theorem adjustBrightness_algebra :
    (∀ img : Image, img.gray.length = img.size → Bytes img.gray →
      (adjustBrightness img 0).gray = img.gray) ∧
    (∀ (img : Image) (i : ℕ), i < img.size →
      (adjustBrightness img 1000).gray.getD i 0 = 255) ∧
    (adjustBrightness (adjustBrightness ⟨1, 1, [0], [0], [0], [100]⟩ 1000)
        (-1000)).gray ≠ (⟨1, 1, [0], [0], [0], [100]⟩ : Image).gray := by
  refine ⟨?_, ?_, by decide⟩
  · intro img hlen hb
    apply List.ext_getElem
    · simp [adjustBrightness, hlen]
    · intro i hi1 hi2
      have hi : i < img.size := by
        simpa [adjustBrightness] using hi1
      have hmem : img.gray.getD i 0 ∈ img.gray := by
        rw [List.getD_eq_getElem _ _ (by omega)]
        exact List.getElem_mem _
      have hbyte : img.gray.getD i 0 ≤ 255 := hb _ hmem
      have h1 : (adjustBrightness img 0).gray[i] =
          (adjustBrightness img 0).gray.getD i 0 :=
        (List.getD_eq_getElem _ _ hi1).symm
      have h2 : (adjustBrightness img 0).gray.getD i 0 =
          adjustPixel (img.gray.getD i 0) 0 := getD_range_map _ hi
      have h3 := adjustPixel_eq (img.gray.getD i 0) 0
      have h4 : img.gray[i] = img.gray.getD i 0 :=
        (List.getD_eq_getElem _ _ hi2).symm
      rw [h1, h2, h4]
      omega
  · intro img i hi
    have h2 : (adjustBrightness img 1000).gray.getD i 0 =
        adjustPixel (img.gray.getD i 0) 1000 := getD_range_map _ hi
    have h3 := adjustPixel_eq (img.gray.getD i 0) 1000
    omega

theorem adjustBrightness_algebra_witness :
    (adjustBrightness (⟨1, 1, [7], [8], [9], [42]⟩ : Image) 0).gray = [42] := by
  have h := adjustBrightness_algebra.1 (⟨1, 1, [7], [8], [9], [42]⟩ : Image)
    (by decide) (by unfold Bytes; decide)
  exact h

/-- C8: for any threshold in `[1, 255]`, applying `applyThreshold` twice
with the same threshold equals applying it once: the first pass leaves
only the values 0 and 255, `0 < t` keeps 0 at 0, and `255 ≥ t` keeps
255 at 255. -/
theorem applyThreshold_idem (img : Image) (t : ℕ) (h1 : 1 ≤ t)
    (h2 : t ≤ 255) :
    applyThreshold (applyThreshold img t) t = applyThreshold img t := by
  unfold applyThreshold
  congr 1
  apply List.map_congr_left
  intro i hi
  have hilt : i < img.size := List.mem_range.mp hi
  rw [getD_range_map _ hilt]
  by_cases hc : t ≤ img.gray.getD i 0
  · rw [if_pos hc, if_pos h2]
  · rw [if_neg hc, if_neg (by omega)]

theorem applyThreshold_idem_witness :
    applyThreshold (applyThreshold (Image.init 1 1) 128) 128 =
      applyThreshold (Image.init 1 1) 128 :=
  applyThreshold_idem (Image.init 1 1) 128 (by decide) (by decide)

/-- C9: the constructor builds all four channels with length
`width * height` (and stores the given dimensions), and every channel
operation preserves that length invariant; dimensions are never written
by any operation. -/
theorem image_invariant :
    (∀ w h : ℕ, WF (Image.init w h) ∧ (Image.init w h).width = w ∧
      (Image.init w h).height = h) ∧
    (∀ img : Image, WF img →
      WF (generateImageData img) ∧ WF (convertToGrayscale img) ∧
      (∀ o : ℤ, WF (adjustBrightness img o)) ∧
      (∀ t : ℕ, WF (applyThreshold img t))) := by
  constructor
  · intro w h
    refine ⟨⟨?_, ?_, ?_, ?_⟩, rfl, rfl⟩ <;> simp [Image.init, Image.size]
  · intro img hwf
    obtain ⟨h1, h2, h3, h4⟩ := hwf
    refine ⟨⟨?_, ?_, ?_, ?_⟩, ⟨?_, ?_, ?_, ?_⟩, fun o => ⟨?_, ?_, ?_, ?_⟩,
      fun t => ⟨?_, ?_, ?_, ?_⟩⟩ <;>
      simp [generateImageData, convertToGrayscale, adjustBrightness,
        applyThreshold, Image.size] <;>
      first
        | exact h1 | exact h2 | exact h3 | exact h4

theorem image_invariant_witness : WF (generateImageData (Image.init 2 3)) :=
  (image_invariant.2 (Image.init 2 3) (by unfold WF; decide)).1

/-- C10: each operation writes only its designated output channels:
`generateImageData` leaves `gray` (and the dimensions) untouched, while
`convertToGrayscale`, `adjustBrightness` and `applyThreshold` leave `r`,
`g`, `b` (and the dimensions) untouched; `calculateAverageGray` returns
a number without producing any image at all. -/
theorem frame_conditions :
    (∀ img : Image, (generateImageData img).gray = img.gray ∧
      (generateImageData img).width = img.width ∧
      (generateImageData img).height = img.height) ∧
    (∀ img : Image, (convertToGrayscale img).r = img.r ∧
      (convertToGrayscale img).g = img.g ∧
      (convertToGrayscale img).b = img.b ∧
      (convertToGrayscale img).width = img.width ∧
      (convertToGrayscale img).height = img.height) ∧
    (∀ (img : Image) (o : ℤ), (adjustBrightness img o).r = img.r ∧
      (adjustBrightness img o).g = img.g ∧
      (adjustBrightness img o).b = img.b ∧
      (adjustBrightness img o).width = img.width ∧
      (adjustBrightness img o).height = img.height) ∧
    (∀ (img : Image) (t : ℕ), (applyThreshold img t).r = img.r ∧
      (applyThreshold img t).g = img.g ∧
      (applyThreshold img t).b = img.b ∧
      (applyThreshold img t).width = img.width ∧
      (applyThreshold img t).height = img.height) :=
  ⟨fun _ => ⟨rfl, rfl, rfl⟩, fun _ => ⟨rfl, rfl, rfl, rfl, rfl⟩,
    fun _ _ => ⟨rfl, rfl, rfl, rfl, rfl⟩, fun _ _ => ⟨rfl, rfl, rfl, rfl, rfl⟩⟩

theorem mainDims_spec_witness : mainDims [] = some (1024, 1024) :=
  mainDims_spec.1

theorem frame_conditions_witness :
    (generateImageData (Image.init 1 1)).gray = (Image.init 1 1).gray :=
  (frame_conditions.1 (Image.init 1 1)).1

theorem c299_nonneg : (0 : ℚ) ≤ c299 := by decide

theorem c587_nonneg : (0 : ℚ) ≤ c587 := by decide

theorem c114_nonneg : (0 : ℚ) ≤ c114 := by decide

/-- The weighted double sum attains exactly 255.0 on a pure white
pixel: every rounding in the chain lands back on a representable value
whose final sum is the integer 255. -/
theorem dsum_top : dsum 255 255 255 = 255 := by decide

theorem dsum_nonneg (r g b : ℕ) : 0 ≤ dsum r g b := by
  have n1 : (0 : ℚ) ≤ fl (c299 * r) :=
    fl_nonneg (mul_nonneg c299_nonneg (Nat.cast_nonneg r))
  have n2 : (0 : ℚ) ≤ fl (c587 * g) :=
    fl_nonneg (mul_nonneg c587_nonneg (Nat.cast_nonneg g))
  have n3 : (0 : ℚ) ≤ fl (c114 * b) :=
    fl_nonneg (mul_nonneg c114_nonneg (Nat.cast_nonneg b))
  exact fl_nonneg (add_nonneg (fl_nonneg (add_nonneg n1 n2)) n3)

theorem dsum_mono {r g b R G B : ℕ} (hr : r ≤ R) (hg : g ≤ G)
    (hb : b ≤ B) : dsum r g b ≤ dsum R G B := by
  have m1 : (0 : ℚ) ≤ c299 * r := mul_nonneg c299_nonneg (Nat.cast_nonneg r)
  have m2 : (0 : ℚ) ≤ c587 * g := mul_nonneg c587_nonneg (Nat.cast_nonneg g)
  have m3 : (0 : ℚ) ≤ c114 * b := mul_nonneg c114_nonneg (Nat.cast_nonneg b)
  have hp1 : fl (c299 * r) ≤ fl (c299 * R) :=
    fl_mono m1 (mul_le_mul_of_nonneg_left (by exact_mod_cast hr) c299_nonneg)
  have hp2 : fl (c587 * g) ≤ fl (c587 * G) :=
    fl_mono m2 (mul_le_mul_of_nonneg_left (by exact_mod_cast hg) c587_nonneg)
  have hp3 : fl (c114 * b) ≤ fl (c114 * B) :=
    fl_mono m3 (mul_le_mul_of_nonneg_left (by exact_mod_cast hb) c114_nonneg)
  have n1 : (0 : ℚ) ≤ fl (c299 * r) := fl_nonneg m1
  have n2 : (0 : ℚ) ≤ fl (c587 * g) := fl_nonneg m2
  have n3 : (0 : ℚ) ≤ fl (c114 * b) := fl_nonneg m3
  have hs1 : fl (fl (c299 * r) + fl (c587 * g)) ≤
      fl (fl (c299 * R) + fl (c587 * G)) :=
    fl_mono (add_nonneg n1 n2) (add_le_add hp1 hp2)
  exact fl_mono (add_nonneg (fl_nonneg (add_nonneg n1 n2)) n3)
    (add_le_add hs1 hp3)

theorem dsum_le_255 {r g b : ℕ} (hr : r ≤ 255) (hg : g ≤ 255)
    (hb : b ≤ 255) : dsum r g b ≤ 255 := by
  calc dsum r g b ≤ dsum 255 255 255 := dsum_mono hr hg hb
  _ = 255 := dsum_top

theorem bytes_getD {l : List ℕ} (hb : Bytes l) (i : ℕ) : l.getD i 0 ≤ 255 := by
  by_cases h : i < l.length
  · rw [List.getD_eq_getElem _ _ h]
    exact hb _ (List.getElem_mem _)
  · rw [List.getD_eq_default _ _ (by omega)]
    omega

/-- C1 (counterexample): on a pure white pixel the reference double
computation yields exactly 255.0, so the truncating byte store produces
gray = 255 — not the 254 the specification predicts. -/
theorem convertToGrayscale_white_not_254 :
    (convertToGrayscale ⟨1, 1, [255], [255], [255], [0]⟩).gray.getD 0 0 = 255 ∧
    (convertToGrayscale ⟨1, 1, [255], [255], [255], [0]⟩).gray.getD 0 0 ≠ 254 := by
  have h : (convertToGrayscale ⟨1, 1, [255], [255], [255], [0]⟩).gray.getD 0 0
      = 255 := by decide
  exact ⟨h, by rw [h]; decide⟩

/-- C1 (amended): for byte-valued channels, `convertToGrayscale` stores
at every pixel the truncation (floor, not rounding) of the
double-rounded weighted sum `0.299*r + 0.587*g + 0.114*b`; that sum is
always within `[0, 255]`, so the byte store never wraps; and at
`r = g = b = 255` the sum is exactly 255.0, whence gray = 255. -/
theorem convertToGrayscale_spec (img : Image)
    (hr : Bytes img.r) (hg : Bytes img.g) (hb : Bytes img.b) :
    (∀ i, i < img.size →
      (convertToGrayscale img).gray.getD i 0 =
        (⌊dsum (img.r.getD i 0) (img.g.getD i 0) (img.b.getD i 0)⌋).toNat ∧
      0 ≤ dsum (img.r.getD i 0) (img.g.getD i 0) (img.b.getD i 0) ∧
      dsum (img.r.getD i 0) (img.g.getD i 0) (img.b.getD i 0) ≤ 255 ∧
      (convertToGrayscale img).gray.getD i 0 ≤ 255) ∧
    dsum 255 255 255 = 255 ∧ grayVal 255 255 255 = 255 := by
  constructor
  · intro i hi
    have hv : (convertToGrayscale img).gray.getD i 0 =
        grayVal (img.r.getD i 0) (img.g.getD i 0) (img.b.getD i 0) :=
      getD_range_map _ hi
    have hle : dsum (img.r.getD i 0) (img.g.getD i 0) (img.b.getD i 0) ≤ 255 :=
      dsum_le_255 (bytes_getD hr i) (bytes_getD hg i) (bytes_getD hb i)
    have hnn := dsum_nonneg (img.r.getD i 0) (img.g.getD i 0) (img.b.getD i 0)
    refine ⟨hv, hnn, hle, ?_⟩
    rw [hv]
    unfold grayVal
    have hfl : ⌊dsum (img.r.getD i 0) (img.g.getD i 0) (img.b.getD i 0)⌋ ≤ 255 := by
      have h2 := Int.floor_mono hle
      have h3 : ⌊(255 : ℚ)⌋ = 255 := by norm_num
      omega
    omega
  · refine ⟨dsum_top, ?_⟩
    unfold grayVal
    rw [dsum_top]
    norm_num
    rfl

theorem convertToGrayscale_spec_witness :
    (convertToGrayscale ⟨1, 1, [123], [45], [67], [0]⟩).gray.getD 0 0 = 70 := by
  have h := (convertToGrayscale_spec ⟨1, 1, [123], [45], [67], [0]⟩
    (by unfold Bytes; decide) (by unfold Bytes; decide)
    (by unfold Bytes; decide)).1 0 (by decide)
  rw [h.1]
  decide

theorem fl_intCast {n : ℤ} (h0 : 0 ≤ n) (h : n < 2 ^ 53) :
    fl (n : ℚ) = (n : ℚ) := by
  obtain ⟨m, rfl⟩ := Int.eq_ofNat_of_zero_le h0
  have hm : m < 2 ^ 53 := by exact_mod_cast h
  push_cast
  exact fl_natCast hm

theorem foldl_add_eq (F : ℕ → ℤ) : ∀ (l : List ℕ) (a : ℤ),
    l.foldl (fun acc i => acc + F i) a = a + (l.map F).sum := by
  intro l
  induction l with
  | nil => intro a; simp
  | cons x xs ih =>
    intro a
    simp only [List.foldl_cons, List.map_cons, List.sum_cons, ih]
    ring

theorem graySum_eq (img : Image) :
    graySum img =
      ((List.range img.size).map (fun i => (img.gray.getD i 0 : ℤ))).sum := by
  unfold graySum
  rw [foldl_add_eq]
  ring

theorem sum_map_range_const (F : ℕ → ℤ) (c : ℤ) :
    ∀ n : ℕ, (∀ i, i < n → F i = c) →
      ((List.range n).map F).sum = n * c := by
  intro n
  induction n with
  | zero => intro _; simp
  | succ n ih =>
    intro h
    rw [List.range_succ, List.map_append, List.sum_append,
      ih (fun i hi => h i (by omega))]
    simp only [List.map_cons, List.map_nil, List.sum_cons, List.sum_nil,
      h n (by omega)]
    push_cast
    ring

theorem graySum_bounds (img : Image) (hb : Bytes img.gray) :
    0 ≤ graySum img ∧ graySum img ≤ 255 * img.size := by
  rw [graySum_eq]
  constructor
  · apply List.sum_nonneg
    intro x hx
    obtain ⟨i, _, rfl⟩ := List.mem_map.mp hx
    positivity
  · have h1 : ((List.range img.size).map
        (fun i => (img.gray.getD i 0 : ℤ))).sum ≤
        ((List.range img.size).map
          (fun i => (img.gray.getD i 0 : ℤ))).length • (255 : ℤ) := by
      apply List.sum_le_card_nsmul
      intro x hx
      obtain ⟨i, _, rfl⟩ := List.mem_map.mp hx
      exact_mod_cast bytes_getD hb i
    simpa [mul_comm] using h1

/-- C2: for a nonempty image with a byte-valued gray channel and a pixel
count no larger than `2^31` (any value an `int`-sized dimension pair can
produce keeps the 64-bit sum below `2^53`, so both conversions to
`double` are exact), `calculateAverageGray` returns the correctly
rounded double of the exact arithmetic mean `sum / size`; on an
all-zero channel it returns exactly 0 and on an all-255 channel exactly
255. -/
theorem calculateAverageGray_spec (img : Image)
    (hpos : 0 < img.size) (hsz : img.size ≤ 2 ^ 31)
    (hlen : img.gray.length = img.size) (hb : Bytes img.gray) :
    calculateAverageGray img = fl ((graySum img : ℚ) / (img.size : ℚ)) ∧
    ((∀ v ∈ img.gray, v = 0) → calculateAverageGray img = 0) ∧
    ((∀ v ∈ img.gray, v = 255) → calculateAverageGray img = 255) := by
  obtain ⟨hs0, hs255⟩ := graySum_bounds img hb
  have hsum53 : graySum img < 2 ^ 53 := by
    have : (255 : ℤ) * img.size ≤ 255 * 2 ^ 31 := by
      have := hsz
      omega
    omega
  have hsz53 : img.size < 2 ^ 53 := by
    have h31 : (2 : ℕ) ^ 31 < 2 ^ 53 := by norm_num
    omega
  have hfl_sum : fl ((graySum img : ℚ)) = (graySum img : ℚ) :=
    fl_intCast hs0 hsum53
  have hfl_size : fl ((img.size : ℚ)) = (img.size : ℚ) := fl_natCast hsz53
  have hmain : calculateAverageGray img =
      fl ((graySum img : ℚ) / (img.size : ℚ)) := by
    unfold calculateAverageGray
    rw [hfl_sum, hfl_size]
  refine ⟨hmain, ?_, ?_⟩
  · intro hz
    have hsum0 : graySum img = 0 := by
      rw [graySum_eq]
      rw [sum_map_range_const _ 0]
      · ring
      · intro i hi
        have hg : img.gray.getD i 0 = 0 := by
          rw [List.getD_eq_getElem _ _ (by omega)]
          exact hz _ (List.getElem_mem _)
        rw [hg]
        norm_num
    rw [hmain, hsum0]
    push_cast
    rw [zero_div]
    exact fl_zero
  · intro hz
    have hsum255 : graySum img = img.size * 255 := by
      rw [graySum_eq]
      rw [sum_map_range_const _ 255]
      · intro i hi
        have hg : img.gray.getD i 0 = 255 := by
          rw [List.getD_eq_getElem _ _ (by omega)]
          exact hz _ (List.getElem_mem _)
        rw [hg]
        norm_num
    rw [hmain, hsum255]
    have hne : ((img.size : ℚ)) ≠ 0 := by
      exact_mod_cast Nat.pos_iff_ne_zero.mp hpos
    have hq : ((img.size * 255 : ℤ) : ℚ) / (img.size : ℚ) = (255 : ℚ) := by
      push_cast
      field_simp
    rw [hq]
    have h255 : fl ((255 : ℕ) : ℚ) = ((255 : ℕ) : ℚ) := fl_natCast (by norm_num)
    exact_mod_cast h255

theorem calculateAverageGray_spec_witness :
    calculateAverageGray
      ⟨2, 2, [0, 0, 0, 0], [0, 0, 0, 0], [0, 0, 0, 0],
        [255, 255, 255, 255]⟩ = 255 := by
  have h := (calculateAverageGray_spec
    ⟨2, 2, [0, 0, 0, 0], [0, 0, 0, 0], [0, 0, 0, 0], [255, 255, 255, 255]⟩
    (by decide) (by decide) (by decide) (by unfold Bytes; decide)).2.2
    (by decide)
  exact h

end ImgBench
